import Mathlib

/-!
Verification of the git-hotspots commit-history extraction and hotspot
aggregation engine (internal/git/git.go, go-git based variant).

The Go code is shallowly embedded:
* Go maps become association lists (`List (String × α)`) updated in place at
  the first matching key and extended at the tail for fresh keys.  Go map
  iteration order is unspecified; the association list fixes insertion order,
  and every theorem below is either order-insensitive or explicitly
  parameterized over the iteration order (see `identifyHotspotsRun`).
* `filepath.Dir` is modelled for slash-separated repository-relative paths.
* The go-git library calls made by `AnalyzeCommits` (PlainOpen, Head, Log,
  commit/tree/diff traversal) are modelled by explicit outcome data carried in
  `RepoModel` / `RawCommit` / `GCommit`.
-/

namespace GitHotspots

/-- CommitInfo mirrors the Go struct: hash, author name, author timestamp
(seconds, as an integer), message, and the list of files changed. -/
structure CommitInfo where
  hash : String
  author : String
  date : Int
  message : String
  files : List String
deriving DecidableEq, Repr

/-- Hotspot mirrors the Go struct: a path with its commit count, the top
contributor and the touch count of that contributor (field AuthorCommits). -/
structure Hotspot where
  path : String
  commits : Nat
  topContributor : String
  authorCommits : Nat
deriving DecidableEq, Repr

/-- Everything of a slash separated path before its last component, reversed
helper: drops the last component of the reversed character list.  Returns
none when the path has no separator at all. -/
def dropLastComponent (cs : List Char) : Option (List Char) :=
  match (cs.reverse.dropWhile (fun c => c ≠ '/')) with
  | [] => none
  | _ :: rest => some rest.reverse

/-- Model of Go filepath.Dir for the repository-relative slash separated
paths git produces: the prefix before the last separator, "." when the path
has no separator (a root-level file), "/" when that prefix is empty. -/
def filepathDir (p : String) : String :=
  match dropLastComponent p.toList with
  | none => "."
  | some [] => "/"
  | some d => ⟨d⟩

/-- Keys of an association list. -/
def keysOf {α : Type} (m : List (String × α)) : List String :=
  m.map Prod.fst

/-- Sum of the values of a counting association list. -/
def sumVals (m : List (String × Nat)) : Nat :=
  (m.map Prod.snd).sum

/-- Go `m[k]++` on a `map[string]int`: bump the entry at the first occurrence
of the key, append a fresh entry with count 1 when the key is absent. -/
def updateCount : List (String × Nat) → String → List (String × Nat)
  | [], k => [(k, 1)]
  | (k', v) :: rest, k =>
      if k' = k then (k', v + 1) :: rest else (k', v) :: updateCount rest k

/-- Go map read with zero default: `m[k]` on a `map[string]int`. -/
def lookupCount : List (String × Nat) → String → Nat
  | [], _ => 0
  | (k', v) :: rest, k => if k' = k then v else lookupCount rest k

/-- Go map read on the nested author maps: `m[k]` yields the nil map
(here the empty list) when the key is absent. -/
def lookupAuthors : List (String × List (String × Nat)) → String → List (String × Nat)
  | [], _ => []
  | (k', v) :: rest, k => if k' = k then v else lookupAuthors rest k

/-- Go `if _, ok := m[k]; !ok { m[k] = make(...) }; m[k][a]++` on the nested
author maps: bump the author count inside the entry at the key, creating the
inner map when absent. -/
def updateAuthors : List (String × List (String × Nat)) → String → String →
    List (String × List (String × Nat))
  | [], k, a => [(k, updateCount [] a)]
  | (k', v) :: rest, k, a =>
      if k' = k then (k', updateCount v a) :: rest
      else (k', v) :: updateAuthors rest k a

/-- The four accumulator maps of IdentifyHotspots. -/
structure AggState where
  fileCommits : List (String × Nat)
  dirCommits : List (String × Nat)
  fileAuthors : List (String × List (String × Nat))
  dirAuthors : List (String × List (String × Nat))
deriving DecidableEq, Repr

/-- The empty accumulator (the four `make(map...)` calls). -/
def initAgg : AggState := ⟨[], [], [], []⟩

/-- Body of the inner loop of IdentifyHotspots for one changed file of one
commit: bump the file maps, then, when the parent directory of the file is
not ".", bump the directory maps. -/
def processFile (author : String) (st : AggState) (file : String) : AggState :=
  let st1 : AggState :=
    { st with
      fileCommits := updateCount st.fileCommits file
      fileAuthors := updateAuthors st.fileAuthors file author }
  let dir := filepathDir file
  if dir ≠ "." then
    { st1 with
      dirCommits := updateCount st1.dirCommits dir
      dirAuthors := updateAuthors st1.dirAuthors dir author }
  else st1

/-- One iteration of the outer loop of IdentifyHotspots: fold the inner loop
over the files of one commit. -/
def processCommit (st : AggState) (c : CommitInfo) : AggState :=
  c.files.foldl (processFile c.author) st

/-- The whole accumulation phase of IdentifyHotspots. -/
def aggregate (commits : List CommitInfo) : AggState :=
  commits.foldl processCommit initAgg

/-- One step of the top-contributor scan: keep the entry with the strictly
greater count (`if authorCommits > topContributions`). -/
def topStep (best : String × Nat) (p : String × Nat) : String × Nat :=
  if p.2 > best.2 then p else best

/-- The top-contributor scan over one author map, started from the empty
contributor with count 0. -/
def topOf (l : List (String × Nat)) : String × Nat :=
  l.foldl topStep ("", 0)

/-- Build one Hotspot from a path/count entry and its author map. -/
def mkHotspot (pc : String × Nat) (authors : List (String × Nat)) : Hotspot :=
  let t := topOf authors
  ⟨pc.1, pc.2, t.1, t.2⟩

/-- IdentifyHotspots: accumulate the four maps over all commits, then emit
one Hotspot per file map entry and one per directory map entry. -/
def IdentifyHotspots (commits : List CommitInfo) : List Hotspot × List Hotspot :=
  let st := aggregate commits
  (st.fileCommits.map (fun pc => mkHotspot pc (lookupAuthors st.fileAuthors pc.1)),
   st.dirCommits.map (fun pc => mkHotspot pc (lookupAuthors st.dirAuthors pc.1)))

/-- One structural diff entry, as go-git reports it: the name on the From
side and the name on the To side (empty string for the absent side). -/
structure Change where
  fromName : String
  toName : String
deriving DecidableEq, Repr

/-- The three merkletrie actions. -/
inductive ChangeAction where
  | insert
  | delete
  | modify
deriving DecidableEq, Repr

/-- go-git Change.Action(): error (none) when both sides are empty, insert
when From is empty, delete when To is empty, modify otherwise. -/
def changeAction (ch : Change) : Option ChangeAction :=
  if ch.fromName = "" then
    if ch.toName = "" then none else some ChangeAction.insert
  else if ch.toName = "" then some ChangeAction.delete
  else some ChangeAction.modify

/-- Body of the change loop of getFilesInCommit: skip the change when
Action() errors, otherwise append the From side name when nonempty and
unseen, else the To side name when nonempty and unseen.  The accumulator is
the pair (files, seenFiles). -/
def addChange (acc : List String × List String) (ch : Change) : List String × List String :=
  match changeAction ch with
  | none => acc
  | some a =>
    if a = ChangeAction.insert ∨ a = ChangeAction.modify ∨ a = ChangeAction.delete then
      if ch.fromName ≠ "" ∧ ch.fromName ∉ acc.2 then
        (acc.1 ++ [ch.fromName], acc.2 ++ [ch.fromName])
      else if ch.toName ≠ "" ∧ ch.toName ∉ acc.2 then
        (acc.1 ++ [ch.toName], acc.2 ++ [ch.toName])
      else acc
    else acc

/-- Outcome of handling one parent inside the parent loop: the parent object
was not found (skipped), its tree could not be read (skipped), the diff
failed (skipped), or the diff produced a change list. -/
inductive ParentFetch where
  | notFound
  | treeError
  | diffError
  | ok (changes : List Change)
deriving DecidableEq, Repr

/-- The change list a parent contributes (empty for the skipped cases). -/
def parentChanges : ParentFetch → List Change
  | ParentFetch.ok cl => cl
  | _ => []

/-- One iteration of the parent loop: the skipped cases leave the
accumulator unchanged, a successful diff folds its changes in. -/
def parentStep (acc : List String × List String) (p : ParentFetch) :
    List String × List String :=
  (parentChanges p).foldl addChange acc

/-- The whole parent loop of getFilesInCommit, started from empty files and
empty seen set. -/
def collectParents (ps : List ParentFetch) : List String × List String :=
  ps.foldl parentStep ([], [])

/-- The data getFilesInCommit reads from one commit: whether commit.Tree()
fails, whether the full tree enumeration (tree.Files().ForEach) fails, the
full tree file list, and the outcomes of the parent traversal in order. -/
structure GCommit where
  treeErr : Bool
  enumErr : Bool
  treeFiles : List String
  parents : List ParentFetch
deriving DecidableEq, Repr

/-- getFilesInCommit: with no parents list the whole tree; otherwise walk
the parents collecting deduplicated changed paths; when that yields nothing
fall back to the whole tree.  Errors of the tree access or of the tree
enumeration abort with an error. -/
def getFilesInCommit (c : GCommit) : Except Unit (List String) :=
  if c.treeErr then Except.error ()
  else if c.parents.length = 0 then
    if c.enumErr then Except.error () else Except.ok c.treeFiles
  else
    let files := (collectParents c.parents).1
    if files = [] then
      if c.enumErr then Except.error () else Except.ok c.treeFiles
    else Except.ok files

/-- One commit as the log walk of AnalyzeCommits sees it: identification and
timestamps plus the diff data consumed by getFilesInCommit.  The committer
timestamp is separate from the author timestamp because the go-git Since
filter reads the committer one while the produced record carries the author
one. -/
structure RawCommit where
  hash : String
  authorName : String
  authorWhen : Int
  committerWhen : Int
  message : String
  gdata : GCommit
deriving DecidableEq, Repr

/-- The two extraction failure classes of AnalyzeCommits. -/
inductive ACError where
  | repoAccess
  | logTraversal
deriving DecidableEq, Repr

/-- Modelled from the go-git library: the commit iterator produced by
repo.Log with a Since option skips every commit whose committer timestamp is
strictly before the cutoff (Committer.When.Before(since)); a commit exactly
at the cutoff is kept. -/
def sinceFilter (since : Int) (cs : List RawCommit) : List RawCommit :=
  cs.filter (fun c => decide (since ≤ c.committerWhen))

/-- The CommitInfo record AnalyzeCommits builds for one walked commit: the
Date field carries the author timestamp. -/
def mkCommitInfo (rc : RawCommit) (files : List String) : CommitInfo :=
  ⟨rc.hash, rc.authorName, rc.authorWhen, rc.message, files⟩

/-- The ForEach body of AnalyzeCommits over the filtered walk: on the first
per-commit failure the whole extraction returns nil records and an error;
otherwise records accumulate in walk order. -/
def analyzeLoop : List RawCommit → List CommitInfo → List CommitInfo × Option ACError
  | [], acc => (acc, none)
  | rc :: rest, acc =>
    match getFilesInCommit rc.gdata with
    | Except.error _ => ([], some ACError.logTraversal)
    | Except.ok files => analyzeLoop rest (acc ++ [mkCommitInfo rc files])

/-- The repository as AnalyzeCommits observes it: whether PlainOpen, Head
and Log succeed, the one-year cutoff, and the commits the log walk visits in
order (before the Since filtering). -/
structure RepoModel where
  openOk : Bool
  headOk : Bool
  logOk : Bool
  since : Int
  commits : List RawCommit
deriving DecidableEq, Repr

/-- AnalyzeCommits: open the repository, resolve head, start the log walk,
then iterate the since-filtered commits; every failure path returns nil
records together with the error. -/
def AnalyzeCommits (r : RepoModel) : List CommitInfo × Option ACError :=
  if ¬ r.openOk then ([], some ACError.repoAccess)
  else if ¬ r.headOk then ([], some ACError.repoAccess)
  else if ¬ r.logOk then ([], some ACError.logTraversal)
  else analyzeLoop (sinceFilter r.since r.commits) []

/-- One run of the hotspot construction with explicit author map iteration
orders: Go map iteration order is unspecified, so a run reads each author
map in some order `fo p` (files) and `dordm p` (directories); a run is valid
when each of those is a permutation of the accumulated author map. -/
def identifyHotspotsRun (commits : List CommitInfo)
    (fo dordm : String → List (String × Nat)) : List Hotspot × List Hotspot :=
  let st := aggregate commits
  (st.fileCommits.map (fun pc => mkHotspot pc (fo pc.1)),
   st.dirCommits.map (fun pc => mkHotspot pc (dordm pc.1)))

/-- Validity of a run: every author map is read in some permutation of its
contents. -/
def validRun (commits : List CommitInfo)
    (fo dordm : String → List (String × Nat)) : Prop :=
  (∀ p, (fo p).Perm (lookupAuthors (aggregate commits).fileAuthors p)) ∧
  (∀ p, (dordm p).Perm (lookupAuthors (aggregate commits).dirAuthors p))

/-- An author map has the unique maximum (a, n) when that entry is present
and every other entry is strictly smaller. -/
def uniqueMax (l : List (String × Nat)) (a : String) (n : Nat) : Prop :=
  (a, n) ∈ l ∧ ∀ p ∈ l, p = (a, n) ∨ p.2 < n

/-- The single path a structural diff entry names: the From side when
nonempty, else the To side (for the non-rename diffs go-git tree diffs
produce, the two sides agree whenever both are nonempty). -/
def pathOfChange (ch : Change) : String :=
  if ch.fromName = "" then ch.toName else ch.fromName

/-- Well-formedness of a change as go-git tree diffs produce them without
rename detection: both sides agree or one side is empty. -/
def wfChange (ch : Change) : Prop :=
  ch.fromName = ch.toName ∨ ch.fromName = "" ∨ ch.toName = ""

/-- A path is changed by the parent traversal when some parent diff contains
a change naming it. -/
def changedBy (ps : List ParentFetch) (x : String) : Prop :=
  ∃ p ∈ ps, ∃ ch ∈ parentChanges p, pathOfChange ch = x

theorem filepathDir_nested : filepathDir "dir1/p.txt" = "dir1" := by decide

theorem filepathDir_root : filepathDir "a.txt" = "." := by decide

theorem filepathDir_deep : filepathDir "a/b/c.txt" = "a/b" := by decide

/-! ### Association list lemmas -/

@[simp]
theorem sumVals_nil : sumVals [] = 0 := rfl

@[simp]
theorem sumVals_cons (a : String) (v : Nat) (m : List (String × Nat)) :
    sumVals ((a, v) :: m) = v + sumVals m := rfl

@[simp]
theorem keysOf_nil {α : Type} : keysOf ([] : List (String × α)) = [] := rfl

@[simp]
theorem keysOf_cons {α : Type} (a : String) (v : α) (m : List (String × α)) :
    keysOf ((a, v) :: m) = a :: keysOf m := rfl

@[simp]
theorem lookupCount_nil (k : String) : lookupCount [] k = 0 := rfl

@[simp]
theorem lookupCount_cons (a : String) (v : Nat) (m : List (String × Nat)) (k : String) :
    lookupCount ((a, v) :: m) k = if a = k then v else lookupCount m k := rfl

@[simp]
theorem lookupAuthors_nil (k : String) : lookupAuthors [] k = [] := rfl

@[simp]
theorem lookupAuthors_cons (a : String) (v : List (String × Nat))
    (m : List (String × List (String × Nat))) (k : String) :
    lookupAuthors ((a, v) :: m) k = if a = k then v else lookupAuthors m k := rfl

/-- Bumping key k changes exactly the count at k. -/
theorem lookupCount_updateCount (m : List (String × Nat)) (k k' : String) :
    lookupCount (updateCount m k) k' = lookupCount m k' + (if k' = k then 1 else 0) := by
  induction m with
  | nil =>
    by_cases h : k' = k
    · subst h
      simp [updateCount]
    · have h2 : ¬ (k = k') := fun hh => h hh.symm
      simp [updateCount, h, h2]
  | cons hd tl ih =>
    obtain ⟨a, v⟩ := hd
    by_cases hak : a = k
    · subst hak
      by_cases h : a = k'
      · subst h
        simp [updateCount]
      · have h2 : ¬ (k' = a) := fun hh => h hh.symm
        simp [updateCount, h, h2]
    · by_cases h : a = k'
      · subst h
        have h2 : ¬ (a = k) := hak
        simp [updateCount, hak, h2]
      · simp [updateCount, hak, h, ih]

/-- Keys after a bump: unchanged when the key was present, extended at the
tail otherwise. -/
theorem keysOf_updateCount (m : List (String × Nat)) (k : String) :
    keysOf (updateCount m k) = if k ∈ keysOf m then keysOf m else keysOf m ++ [k] := by
  induction m with
  | nil => simp [updateCount]
  | cons hd tl ih =>
    obtain ⟨a, v⟩ := hd
    by_cases hak : a = k
    · subst hak
      simp [updateCount]
    · have hka : ¬ (k = a) := fun hh => hak hh.symm
      by_cases hmem : k ∈ keysOf tl <;>
        simp [updateCount, hak, hka, hmem, ih]

theorem mem_keysOf_updateCount (m : List (String × Nat)) (k a : String) :
    a ∈ keysOf (updateCount m k) ↔ a ∈ keysOf m ∨ a = k := by
  rw [keysOf_updateCount]
  by_cases hmem : k ∈ keysOf m
  · simp only [if_pos hmem]
    constructor
    · exact fun h => Or.inl h
    · rintro (h | rfl)
      · exact h
      · exact hmem
  · simp [if_neg hmem]

theorem nodup_keysOf_updateCount (m : List (String × Nat)) (k : String)
    (h : (keysOf m).Nodup) : (keysOf (updateCount m k)).Nodup := by
  rw [keysOf_updateCount]
  by_cases hmem : k ∈ keysOf m
  · simpa [hmem]
  · simp only [if_neg hmem]
    refine List.Nodup.append h (List.nodup_singleton k) ?_
    intro x hx hk
    simp only [List.mem_singleton] at hk
    subst hk
    exact hmem hx

/-- With duplicate free keys, membership determines the looked up count. -/
theorem lookupCount_eq_of_mem (m : List (String × Nat)) (p : String) (n : Nat)
    (hnd : (keysOf m).Nodup) (hm : (p, n) ∈ m) : lookupCount m p = n := by
  induction m with
  | nil => simp at hm
  | cons hd tl ih =>
    obtain ⟨a, v⟩ := hd
    simp only [keysOf_cons, List.nodup_cons] at hnd
    rcases List.mem_cons.mp hm with h | h
    · obtain ⟨rfl, rfl⟩ := Prod.mk.injEq .. ▸ h
      simp
    · have hpa : ¬ (a = p) := by
        rintro rfl
        exact hnd.1 (List.mem_map.mpr ⟨(a, n), h, rfl⟩)
      simp [hpa, ih hnd.2 h]

theorem sumVals_updateCount (m : List (String × Nat)) (k : String) :
    sumVals (updateCount m k) = sumVals m + 1 := by
  induction m with
  | nil => simp [updateCount]
  | cons hd tl ih =>
    obtain ⟨a, v⟩ := hd
    by_cases hak : a = k <;> simp [updateCount, hak, ih] <;> omega

theorem mem_updateCount (m : List (String × Nat)) (k : String) (pn : String × Nat)
    (h : pn ∈ updateCount m k) : pn ∈ m ∨ pn.1 = k := by
  induction m with
  | nil =>
    simp only [updateCount, List.mem_singleton] at h
    subst h
    exact Or.inr rfl
  | cons hd tl ih =>
    obtain ⟨a, v⟩ := hd
    by_cases hak : a = k
    · subst hak
      simp only [updateCount, if_pos, List.mem_cons] at h
      rcases h with heq | h
      · subst heq
        exact Or.inr rfl
      · exact Or.inl (List.mem_cons_of_mem _ h)
    · simp only [updateCount, if_neg hak, List.mem_cons] at h
      rcases h with heq | h
      · subst heq
        exact Or.inl (List.mem_cons_self _ _)
      · rcases ih h with h | h
        · exact Or.inl (List.mem_cons_of_mem _ h)
        · exact Or.inr h

theorem pos_updateCount (m : List (String × Nat)) (k : String)
    (h : ∀ pn ∈ m, 1 ≤ pn.2) : ∀ pn ∈ updateCount m k, 1 ≤ pn.2 := by
  induction m with
  | nil =>
    intro pn hpn
    simp only [updateCount, List.mem_singleton] at hpn
    subst hpn
    exact le_refl 1
  | cons hd tl ih =>
    obtain ⟨a, v⟩ := hd
    intro pn hpn
    by_cases hak : a = k
    · subst hak
      simp only [updateCount, if_pos, List.mem_cons] at hpn
      rcases hpn with heq | hpn
      · subst heq
        simp
      · exact h pn (List.mem_cons_of_mem _ hpn)
    · simp only [updateCount, if_neg hak, List.mem_cons] at hpn
      rcases hpn with heq | hpn
      · subst heq
        exact h (a, v) (List.mem_cons_self _ _)
      · exact ih (fun q hq => h q (List.mem_cons_of_mem _ hq)) pn hpn

theorem le_sumVals_of_mem (m : List (String × Nat)) (pn : String × Nat)
    (h : pn ∈ m) : pn.2 ≤ sumVals m := by
  induction m with
  | nil => simp at h
  | cons hd tl ih =>
    obtain ⟨a, v⟩ := hd
    rcases List.mem_cons.mp h with rfl | h
    · simp
    · calc pn.2 ≤ sumVals tl := ih h
        _ ≤ v + sumVals tl := Nat.le_add_left _ _
        _ = sumVals ((a, v) :: tl) := rfl

theorem sumVals_filter_updateCount (P : String → Bool) (m : List (String × Nat)) (k : String) :
    sumVals ((updateCount m k).filter (fun pc => P pc.1))
      = sumVals (m.filter (fun pc => P pc.1)) + (if P k then 1 else 0) := by
  induction m with
  | nil =>
    by_cases h : P k <;> simp [updateCount, h]
  | cons hd tl ih =>
    obtain ⟨a, v⟩ := hd
    by_cases hak : a = k
    · subst hak
      by_cases h : P a <;> simp [updateCount, h] <;> omega
    · by_cases h : P a <;> simp [updateCount, hak, h, ih] <;> omega

/-- Updating the author map at key f rewires exactly the entry at f. -/
theorem lookupAuthors_updateAuthors (m : List (String × List (String × Nat)))
    (f a p : String) :
    lookupAuthors (updateAuthors m f a) p
      = if p = f then updateCount (lookupAuthors m f) a else lookupAuthors m p := by
  induction m with
  | nil =>
    by_cases h : p = f
    · subst h
      simp [updateAuthors]
    · have : ¬ (f = p) := fun hh => h hh.symm
      simp [updateAuthors, h, this]
  | cons hd tl ih =>
    obtain ⟨k', v⟩ := hd
    by_cases hkf : k' = f
    · subst hkf
      by_cases h : k' = p
      · subst h
        simp [updateAuthors]
      · have hpk : ¬ (p = k') := fun hh => h hh.symm
        simp [updateAuthors, h, hpk]
    · by_cases h : k' = p
      · subst h
        have hpf : ¬ (k' = f) := hkf
        simp [updateAuthors, hkf, hpf]
      · simp [updateAuthors, hkf, h, ih]

/-! ### Per-file step lemmas for the aggregation loop -/

theorem processFile_fileCommits (a : String) (st : AggState) (f : String) :
    (processFile a st f).fileCommits = updateCount st.fileCommits f := by
  unfold processFile
  dsimp only
  split <;> rfl

theorem processFile_fileAuthors (a : String) (st : AggState) (f : String) :
    (processFile a st f).fileAuthors = updateAuthors st.fileAuthors f a := by
  unfold processFile
  dsimp only
  split <;> rfl

theorem processFile_dirCommits (a : String) (st : AggState) (f : String) :
    (processFile a st f).dirCommits
      = if filepathDir f ≠ "." then updateCount st.dirCommits (filepathDir f)
        else st.dirCommits := by
  unfold processFile
  dsimp only
  split <;> simp_all

theorem processFile_dirAuthors (a : String) (st : AggState) (f : String) :
    (processFile a st f).dirAuthors
      = if filepathDir f ≠ "." then updateAuthors st.dirAuthors (filepathDir f) a
        else st.dirAuthors := by
  unfold processFile
  dsimp only
  split <;> simp_all

/-! ### Closed forms of the aggregation fold -/

theorem lookupCount_foldl_fileCommits (a p : String) :
    ∀ (fs : List String) (st : AggState),
      lookupCount (fs.foldl (processFile a) st).fileCommits p
        = lookupCount st.fileCommits p + fs.countP (fun f => decide (p = f)) := by
  intro fs
  induction fs with
  | nil => intro st; simp
  | cons f fs ih =>
    intro st
    rw [List.foldl_cons, ih, processFile_fileCommits, lookupCount_updateCount,
      List.countP_cons]
    by_cases h : p = f <;> simp [h] <;> omega

theorem lookupCount_foldl_fileAuthors (a b q : String) :
    ∀ (fs : List String) (st : AggState),
      lookupCount (lookupAuthors (fs.foldl (processFile a) st).fileAuthors q) b
        = lookupCount (lookupAuthors st.fileAuthors q) b
          + (if b = a then fs.countP (fun f => decide (q = f)) else 0) := by
  intro fs
  induction fs with
  | nil => intro st; simp
  | cons f fs ih =>
    intro st
    rw [List.foldl_cons, ih, processFile_fileAuthors, lookupAuthors_updateAuthors,
      List.countP_cons]
    by_cases hqf : q = f
    · subst hqf
      rw [if_pos rfl, lookupCount_updateCount]
      by_cases hba : b = a <;> simp [hba] <;> omega
    · have : ¬ decide (q = f) = true := by simp [hqf]
      rw [if_neg hqf]
      by_cases hba : b = a <;> simp [hba, hqf]

theorem lookupCount_foldl_dirCommits (a d : String) (hd : d ≠ ".") :
    ∀ (fs : List String) (st : AggState),
      lookupCount (fs.foldl (processFile a) st).dirCommits d
        = lookupCount st.dirCommits d
          + fs.countP (fun f => decide (filepathDir f = d)) := by
  intro fs
  induction fs with
  | nil => intro st; simp
  | cons f fs ih =>
    intro st
    rw [List.foldl_cons, ih, processFile_dirCommits, List.countP_cons]
    by_cases hdot : filepathDir f = "."
    · have hdd : ¬ ("." = d) := fun hh => hd hh.symm
      have hfd : ¬ (filepathDir f = d) := by
        rw [hdot]
        exact hdd
      simp [hdot, hfd, hdd]
    · rw [if_pos hdot, lookupCount_updateCount]
      by_cases hfd : filepathDir f = d
      · rw [hfd]
        simp
        omega
      · have hdf : ¬ (d = filepathDir f) := fun hh => hfd hh.symm
        simp [hfd, hdf]

theorem lookupCount_foldl_dirAuthors (a b d : String) (hd : d ≠ ".") :
    ∀ (fs : List String) (st : AggState),
      lookupCount (lookupAuthors (fs.foldl (processFile a) st).dirAuthors d) b
        = lookupCount (lookupAuthors st.dirAuthors d) b
          + (if b = a then fs.countP (fun f => decide (filepathDir f = d)) else 0) := by
  intro fs
  induction fs with
  | nil => intro st; simp
  | cons f fs ih =>
    intro st
    rw [List.foldl_cons, ih, processFile_dirAuthors, List.countP_cons]
    by_cases hdot : filepathDir f = "."
    · have hdd : ¬ ("." = d) := fun hh => hd hh.symm
      have hfd : ¬ (filepathDir f = d) := by
        rw [hdot]
        exact hdd
      simp [hdot, hfd, hdd]
    · rw [if_pos hdot, lookupAuthors_updateAuthors]
      by_cases hfd : filepathDir f = d
      · rw [if_pos hfd.symm, hfd, lookupCount_updateCount]
        by_cases hba : b = a <;> simp [hba] <;> omega
      · have hdf : ¬ (d = filepathDir f) := fun hh => hfd hh.symm
        rw [if_neg hdf]
        by_cases hba : b = a <;> simp [hba, hfd]

theorem mem_keysOf_foldl_fileCommits (a p : String) :
    ∀ (fs : List String) (st : AggState),
      (p ∈ keysOf (fs.foldl (processFile a) st).fileCommits
        ↔ p ∈ keysOf st.fileCommits ∨ p ∈ fs) := by
  intro fs
  induction fs with
  | nil => intro st; simp
  | cons f fs ih =>
    intro st
    rw [List.foldl_cons, ih, processFile_fileCommits, mem_keysOf_updateCount]
    simp only [List.mem_cons]
    tauto

theorem nodup_keysOf_foldl_fileCommits (a : String) :
    ∀ (fs : List String) (st : AggState),
      (keysOf st.fileCommits).Nodup →
      (keysOf (fs.foldl (processFile a) st).fileCommits).Nodup := by
  intro fs
  induction fs with
  | nil => intro st h; exact h
  | cons f fs ih =>
    intro st h
    rw [List.foldl_cons]
    exact ih _ (by rw [processFile_fileCommits]; exact nodup_keysOf_updateCount _ _ h)

theorem mem_keysOf_foldl_dirCommits (a d : String) :
    ∀ (fs : List String) (st : AggState),
      (d ∈ keysOf (fs.foldl (processFile a) st).dirCommits
        ↔ d ∈ keysOf st.dirCommits ∨ (d ≠ "." ∧ ∃ f ∈ fs, filepathDir f = d)) := by
  intro fs
  induction fs with
  | nil => intro st; simp
  | cons f fs ih =>
    intro st
    rw [List.foldl_cons, ih, processFile_dirCommits]
    by_cases hdot : filepathDir f = "."
    · rw [if_neg (by simp [hdot])]
      constructor
      · rintro (h | h)
        · exact Or.inl h
        · exact Or.inr ⟨h.1, by
            obtain ⟨g, hg, hgd⟩ := h.2
            exact ⟨g, List.mem_cons_of_mem _ hg, hgd⟩⟩
      · rintro (h | ⟨hne, g, hg, hgd⟩)
        · exact Or.inl h
        · rcases List.mem_cons.mp hg with rfl | hg
          · exact absurd (hdot ▸ hgd : "." = d) (fun hh => hne hh.symm)
          · exact Or.inr ⟨hne, g, hg, hgd⟩
    · rw [if_pos hdot, mem_keysOf_updateCount]
      constructor
      · rintro ((h | rfl) | h)
        · exact Or.inl h
        · exact Or.inr ⟨hdot, f, List.mem_cons_self _ _, rfl⟩
        · exact Or.inr ⟨h.1, by
            obtain ⟨g, hg, hgd⟩ := h.2
            exact ⟨g, List.mem_cons_of_mem _ hg, hgd⟩⟩
      · rintro (h | ⟨hne, g, hg, hgd⟩)
        · exact Or.inl (Or.inl h)
        · rcases List.mem_cons.mp hg with rfl | hg
          · exact Or.inl (Or.inr hgd.symm)
          · exact Or.inr ⟨hne, g, hg, hgd⟩

theorem nodup_keysOf_foldl_dirCommits (a : String) :
    ∀ (fs : List String) (st : AggState),
      (keysOf st.dirCommits).Nodup →
      (keysOf (fs.foldl (processFile a) st).dirCommits).Nodup := by
  intro fs
  induction fs with
  | nil => intro st h; exact h
  | cons f fs ih =>
    intro st h
    rw [List.foldl_cons]
    refine ih _ ?_
    rw [processFile_dirCommits]
    by_cases hdot : filepathDir f = "."
    · rw [if_neg (by simp [hdot])]
      exact h
    · rw [if_pos hdot]
      exact nodup_keysOf_updateCount _ _ h

/-! ### Aggregate level closed forms -/

theorem lookupCount_aggregate_fileCommits (cs : List CommitInfo) (p : String) :
    lookupCount (aggregate cs).fileCommits p
      = (cs.map (fun c => c.files.countP (fun f => decide (p = f)))).sum := by
  suffices h : ∀ (l : List CommitInfo) (st : AggState),
      lookupCount (l.foldl processCommit st).fileCommits p
        = lookupCount st.fileCommits p
          + (l.map (fun c => c.files.countP (fun f => decide (p = f)))).sum by
    simpa [aggregate, initAgg] using h cs initAgg
  intro l
  induction l with
  | nil => intro st; simp
  | cons c l ih =>
    intro st
    rw [List.foldl_cons, ih]
    simp only [processCommit]
    rw [lookupCount_foldl_fileCommits]
    simp only [List.map_cons, List.sum_cons]
    omega

theorem lookupCount_aggregate_fileAuthors (cs : List CommitInfo) (q b : String) :
    lookupCount (lookupAuthors (aggregate cs).fileAuthors q) b
      = (cs.map (fun c =>
          if b = c.author then c.files.countP (fun f => decide (q = f)) else 0)).sum := by
  suffices h : ∀ (l : List CommitInfo) (st : AggState),
      lookupCount (lookupAuthors (l.foldl processCommit st).fileAuthors q) b
        = lookupCount (lookupAuthors st.fileAuthors q) b
          + (l.map (fun c =>
              if b = c.author then c.files.countP (fun f => decide (q = f)) else 0)).sum by
    simpa [aggregate, initAgg] using h cs initAgg
  intro l
  induction l with
  | nil => intro st; simp
  | cons c l ih =>
    intro st
    rw [List.foldl_cons, ih]
    simp only [processCommit]
    rw [lookupCount_foldl_fileAuthors]
    simp only [List.map_cons, List.sum_cons]
    omega

theorem lookupCount_aggregate_dirCommits (cs : List CommitInfo) (d : String)
    (hd : d ≠ ".") :
    lookupCount (aggregate cs).dirCommits d
      = (cs.map (fun c => c.files.countP (fun f => decide (filepathDir f = d)))).sum := by
  suffices h : ∀ (l : List CommitInfo) (st : AggState),
      lookupCount (l.foldl processCommit st).dirCommits d
        = lookupCount st.dirCommits d
          + (l.map (fun c => c.files.countP (fun f => decide (filepathDir f = d)))).sum by
    simpa [aggregate, initAgg] using h cs initAgg
  intro l
  induction l with
  | nil => intro st; simp
  | cons c l ih =>
    intro st
    rw [List.foldl_cons, ih]
    simp only [processCommit]
    rw [lookupCount_foldl_dirCommits _ _ hd]
    simp only [List.map_cons, List.sum_cons]
    omega

theorem lookupCount_aggregate_dirAuthors (cs : List CommitInfo) (d b : String)
    (hd : d ≠ ".") :
    lookupCount (lookupAuthors (aggregate cs).dirAuthors d) b
      = (cs.map (fun c =>
          if b = c.author then c.files.countP (fun f => decide (filepathDir f = d)) else 0)).sum := by
  suffices h : ∀ (l : List CommitInfo) (st : AggState),
      lookupCount (lookupAuthors (l.foldl processCommit st).dirAuthors d) b
        = lookupCount (lookupAuthors st.dirAuthors d) b
          + (l.map (fun c =>
              if b = c.author then c.files.countP (fun f => decide (filepathDir f = d)) else 0)).sum by
    simpa [aggregate, initAgg] using h cs initAgg
  intro l
  induction l with
  | nil => intro st; simp
  | cons c l ih =>
    intro st
    rw [List.foldl_cons, ih]
    simp only [processCommit]
    rw [lookupCount_foldl_dirAuthors _ _ _ hd]
    simp only [List.map_cons, List.sum_cons]
    omega

theorem mem_keysOf_aggregate_fileCommits (cs : List CommitInfo) (p : String) :
    p ∈ keysOf (aggregate cs).fileCommits ↔ ∃ c ∈ cs, p ∈ c.files := by
  suffices h : ∀ (l : List CommitInfo) (st : AggState),
      (p ∈ keysOf (l.foldl processCommit st).fileCommits
        ↔ p ∈ keysOf st.fileCommits ∨ ∃ c ∈ l, p ∈ c.files) by
    simpa [aggregate, initAgg] using h cs initAgg
  intro l
  induction l with
  | nil => intro st; simp
  | cons c l ih =>
    intro st
    rw [List.foldl_cons, ih]
    simp only [processCommit]
    rw [mem_keysOf_foldl_fileCommits]
    simp only [List.mem_cons]
    constructor
    · rintro ((h | h) | ⟨c', hc', hp⟩)
      · exact Or.inl h
      · exact Or.inr ⟨c, Or.inl rfl, h⟩
      · exact Or.inr ⟨c', Or.inr hc', hp⟩
    · rintro (h | ⟨c', hc' | hc', hp⟩)
      · exact Or.inl (Or.inl h)
      · exact Or.inl (Or.inr (hc' ▸ hp))
      · exact Or.inr ⟨c', hc', hp⟩

theorem nodup_keysOf_aggregate_fileCommits (cs : List CommitInfo) :
    (keysOf (aggregate cs).fileCommits).Nodup := by
  suffices h : ∀ (l : List CommitInfo) (st : AggState),
      (keysOf st.fileCommits).Nodup →
      (keysOf (l.foldl processCommit st).fileCommits).Nodup by
    exact h cs initAgg List.nodup_nil
  intro l
  induction l with
  | nil => intro st hst; exact hst
  | cons c l ih =>
    intro st hst
    rw [List.foldl_cons]
    exact ih _ (nodup_keysOf_foldl_fileCommits _ _ _ hst)

theorem mem_keysOf_aggregate_dirCommits (cs : List CommitInfo) (d : String) :
    d ∈ keysOf (aggregate cs).dirCommits
      ↔ d ≠ "." ∧ ∃ c ∈ cs, ∃ f ∈ c.files, filepathDir f = d := by
  suffices h : ∀ (l : List CommitInfo) (st : AggState),
      (d ∈ keysOf (l.foldl processCommit st).dirCommits
        ↔ d ∈ keysOf st.dirCommits
          ∨ (d ≠ "." ∧ ∃ c ∈ l, ∃ f ∈ c.files, filepathDir f = d)) by
    simpa [aggregate, initAgg] using h cs initAgg
  intro l
  induction l with
  | nil => intro st; simp
  | cons c l ih =>
    intro st
    rw [List.foldl_cons, ih]
    simp only [processCommit]
    rw [mem_keysOf_foldl_dirCommits]
    simp only [List.mem_cons]
    constructor
    · rintro ((h | ⟨hne, f, hf, hfd⟩) | ⟨hne, c', hc', f, hf, hfd⟩)
      · exact Or.inl h
      · exact Or.inr ⟨hne, c, Or.inl rfl, f, hf, hfd⟩
      · exact Or.inr ⟨hne, c', Or.inr hc', f, hf, hfd⟩
    · rintro (h | ⟨hne, c', hc' | hc', f, hf, hfd⟩)
      · exact Or.inl (Or.inl h)
      · exact Or.inl (Or.inr ⟨hne, f, hc' ▸ hf, hfd⟩)
      · exact Or.inr ⟨hne, c', hc', f, hf, hfd⟩

theorem nodup_keysOf_aggregate_dirCommits (cs : List CommitInfo) :
    (keysOf (aggregate cs).dirCommits).Nodup := by
  suffices h : ∀ (l : List CommitInfo) (st : AggState),
      (keysOf st.dirCommits).Nodup →
      (keysOf (l.foldl processCommit st).dirCommits).Nodup by
    exact h cs initAgg List.nodup_nil
  intro l
  induction l with
  | nil => intro st hst; exact hst
  | cons c l ih =>
    intro st hst
    rw [List.foldl_cons]
    exact ih _ (nodup_keysOf_foldl_dirCommits _ _ _ hst)

/-! ### Invariants of the accumulator -/

/-- Invariants tying the four accumulator maps together.  The parameter A
constrains where author keys can come from. -/
structure AggInv (A : String → Prop) (st : AggState) : Prop where
  sumFile : ∀ q, sumVals (lookupAuthors st.fileAuthors q) = lookupCount st.fileCommits q
  sumDir : ∀ q, sumVals (lookupAuthors st.dirAuthors q) = lookupCount st.dirCommits q
  posFileA : ∀ q, ∀ pn ∈ lookupAuthors st.fileAuthors q, 1 ≤ pn.2
  posDirA : ∀ q, ∀ pn ∈ lookupAuthors st.dirAuthors q, 1 ≤ pn.2
  authFileA : ∀ q, ∀ pn ∈ lookupAuthors st.fileAuthors q, A pn.1
  authDirA : ∀ q, ∀ pn ∈ lookupAuthors st.dirAuthors q, A pn.1
  posFile : ∀ pn ∈ st.fileCommits, 1 ≤ pn.2
  posDir : ∀ pn ∈ st.dirCommits, 1 ≤ pn.2
  nodupFile : (keysOf st.fileCommits).Nodup
  nodupDir : (keysOf st.dirCommits).Nodup
  noDot : "." ∉ keysOf st.dirCommits
  dirSum : ∀ d, d ≠ "." → lookupCount st.dirCommits d
      = sumVals (st.fileCommits.filter (fun pc => decide (filepathDir pc.1 = d)))

theorem aggInv_initAgg (A : String → Prop) : AggInv A initAgg := by
  constructor <;> simp [initAgg]

theorem aggInv_processFile (A : String → Prop) (a : String) (hA : A a)
    (st : AggState) (inv : AggInv A st) (f : String) :
    AggInv A (processFile a st f) := by
  constructor
  · intro q
    rw [processFile_fileAuthors, processFile_fileCommits,
      lookupAuthors_updateAuthors, lookupCount_updateCount]
    by_cases hqf : q = f
    · subst hqf
      rw [if_pos rfl, if_pos rfl, sumVals_updateCount, inv.sumFile q]
    · rw [if_neg hqf, if_neg hqf, inv.sumFile q]
      omega
  · intro q
    rw [processFile_dirAuthors, processFile_dirCommits]
    by_cases hdot : filepathDir f ≠ "."
    · rw [if_pos hdot, if_pos hdot, lookupAuthors_updateAuthors, lookupCount_updateCount]
      by_cases hqd : q = filepathDir f
      · subst hqd
        rw [if_pos rfl, if_pos rfl, sumVals_updateCount, inv.sumDir (filepathDir f)]
      · rw [if_neg hqd, if_neg hqd, inv.sumDir q]
        omega
    · rw [if_neg hdot, if_neg hdot]
      exact inv.sumDir q
  · intro q
    rw [processFile_fileAuthors, lookupAuthors_updateAuthors]
    by_cases hqf : q = f
    · rw [if_pos hqf]
      exact pos_updateCount _ _ (inv.posFileA f)
    · rw [if_neg hqf]
      exact inv.posFileA q
  · intro q
    rw [processFile_dirAuthors]
    by_cases hdot : filepathDir f ≠ "."
    · rw [if_pos hdot, lookupAuthors_updateAuthors]
      by_cases hqd : q = filepathDir f
      · rw [if_pos hqd]
        exact pos_updateCount _ _ (inv.posDirA (filepathDir f))
      · rw [if_neg hqd]
        exact inv.posDirA q
    · rw [if_neg hdot]
      exact inv.posDirA q
  · intro q pn hpn
    rw [processFile_fileAuthors, lookupAuthors_updateAuthors] at hpn
    by_cases hqf : q = f
    · rw [if_pos hqf] at hpn
      rcases mem_updateCount _ _ _ hpn with h | h
      · exact inv.authFileA f pn h
      · exact h ▸ hA
    · rw [if_neg hqf] at hpn
      exact inv.authFileA q pn hpn
  · intro q pn hpn
    rw [processFile_dirAuthors] at hpn
    by_cases hdot : filepathDir f ≠ "."
    · rw [if_pos hdot, lookupAuthors_updateAuthors] at hpn
      by_cases hqd : q = filepathDir f
      · rw [if_pos hqd] at hpn
        rcases mem_updateCount _ _ _ hpn with h | h
        · exact inv.authDirA (filepathDir f) pn h
        · exact h ▸ hA
      · rw [if_neg hqd] at hpn
        exact inv.authDirA q pn hpn
    · rw [if_neg hdot] at hpn
      exact inv.authDirA q pn hpn
  · rw [processFile_fileCommits]
    exact pos_updateCount _ _ inv.posFile
  · rw [processFile_dirCommits]
    by_cases hdot : filepathDir f ≠ "."
    · rw [if_pos hdot]
      exact pos_updateCount _ _ inv.posDir
    · rw [if_neg hdot]
      exact inv.posDir
  · rw [processFile_fileCommits]
    exact nodup_keysOf_updateCount _ _ inv.nodupFile
  · rw [processFile_dirCommits]
    by_cases hdot : filepathDir f ≠ "."
    · rw [if_pos hdot]
      exact nodup_keysOf_updateCount _ _ inv.nodupDir
    · rw [if_neg hdot]
      exact inv.nodupDir
  · rw [processFile_dirCommits]
    by_cases hdot : filepathDir f ≠ "."
    · rw [if_pos hdot]
      intro hmem
      rcases (mem_keysOf_updateCount _ _ _).mp hmem with h | h
      · exact inv.noDot h
      · exact hdot h.symm
    · rw [if_neg hdot]
      exact inv.noDot
  · intro d hd
    rw [processFile_fileCommits, processFile_dirCommits,
      sumVals_filter_updateCount (fun x => decide (filepathDir x = d))]
    by_cases hdot : filepathDir f ≠ "."
    · rw [if_pos hdot, lookupCount_updateCount]
      by_cases hfd : filepathDir f = d
      · rw [if_pos (hfd.symm), if_pos (by simpa using hfd), inv.dirSum d hd]
      · rw [if_neg (fun hh => hfd hh.symm), if_neg (by simpa using hfd), inv.dirSum d hd]
    · have hdotEq : filepathDir f = "." := by
        by_contra hc
        exact hdot hc
      have hfd : ¬ (filepathDir f = d) := by
        rw [hdotEq]
        exact fun hh => hd hh.symm
      rw [if_neg hdot, if_neg (by simpa using hfd), inv.dirSum d hd]
      omega

theorem aggInv_foldl_files (A : String → Prop) (a : String) (hA : A a) :
    ∀ (fs : List String) (st : AggState), AggInv A st →
      AggInv A (fs.foldl (processFile a) st) := by
  intro fs
  induction fs with
  | nil => intro st inv; exact inv
  | cons f fs ih =>
    intro st inv
    rw [List.foldl_cons]
    exact ih _ (aggInv_processFile A a hA st inv f)

theorem aggInv_aggregate (A : String → Prop) (cs : List CommitInfo)
    (hA : ∀ c ∈ cs, A c.author) : AggInv A (aggregate cs) := by
  suffices h : ∀ (l : List CommitInfo) (st : AggState), (∀ c ∈ l, A c.author) →
      AggInv A st → AggInv A (l.foldl processCommit st) from
    h cs initAgg hA (aggInv_initAgg A)
  intro l
  induction l with
  | nil => intro st _ inv; exact inv
  | cons c l ih =>
    intro st hAl inv
    rw [List.foldl_cons]
    refine ih _ (fun c' hc' => hAl c' (List.mem_cons_of_mem _ hc')) ?_
    exact aggInv_foldl_files A c.author (hAl c (List.mem_cons_self _ _)) c.files st inv

/-! ### The top-contributor scan -/

theorem foldl_topStep_spec (l : List (String × Nat)) :
    ∀ init : String × Nat,
      (l.foldl topStep init = init ∨ l.foldl topStep init ∈ l)
      ∧ init.2 ≤ (l.foldl topStep init).2
      ∧ ∀ p ∈ l, p.2 ≤ (l.foldl topStep init).2 := by
  induction l with
  | nil =>
    intro init
    exact ⟨Or.inl rfl, le_refl _, by simp⟩
  | cons q l ih =>
    intro init
    rw [List.foldl_cons]
    obtain ⟨hmem, hinit, hall⟩ := ih (topStep init q)
    have hstep : topStep init q = init ∨ topStep init q = q := by
      unfold topStep
      split
      · exact Or.inr rfl
      · exact Or.inl rfl
    have hinit2 : init.2 ≤ (topStep init q).2 := by
      unfold topStep
      split
      · omega
      · exact le_refl _
    have hq2 : q.2 ≤ (topStep init q).2 := by
      unfold topStep
      split
      · exact le_refl _
      · omega
    refine ⟨?_, le_trans hinit2 hinit, ?_⟩
    · rcases hmem with h | h
      · rw [h]
        rcases hstep with h2 | h2
        · exact Or.inl h2
        · refine Or.inr ?_
          rw [h2]
          exact List.mem_cons_self _ _
      · exact Or.inr (List.mem_cons_of_mem _ h)
    · intro p hp
      rcases List.mem_cons.mp hp with rfl | hp
      · exact le_trans hq2 hinit
      · exact hall p hp

theorem foldl_topStep_const (l : List (String × Nat)) :
    ∀ init : String × Nat, (∀ p ∈ l, p.2 ≤ init.2) → l.foldl topStep init = init := by
  induction l with
  | nil => intro init _; rfl
  | cons q l ih =>
    intro init h
    rw [List.foldl_cons]
    have hq : q.2 ≤ init.2 := h q (List.mem_cons_self _ _)
    have hstep : topStep init q = init := by
      unfold topStep
      rw [if_neg]
      omega
    rw [hstep]
    exact ih init (fun p hp => h p (List.mem_cons_of_mem _ hp))

theorem foldl_topStep_uniqueMax (a : String) (n : Nat) :
    ∀ (l : List (String × Nat)) (init : String × Nat),
      (a, n) ∈ l → (∀ p ∈ l, p = (a, n) ∨ p.2 < n) → init.2 < n →
      l.foldl topStep init = (a, n) := by
  intro l
  induction l with
  | nil =>
    intro init h
    simp at h
  | cons q l ih =>
    intro init hmem hlt hinit
    rw [List.foldl_cons]
    have hbound : ∀ p ∈ l, p.2 ≤ n := by
      intro p hp
      rcases hlt p (List.mem_cons_of_mem _ hp) with rfl | h
      · exact le_refl _
      · exact le_of_lt h
    rcases List.mem_cons.mp hmem with heq | hmem'
    · have hstep : topStep init q = (a, n) := by
        rw [← heq]
        unfold topStep
        rw [if_pos]
        simpa using hinit
      rw [hstep]
      exact foldl_topStep_const l (a, n) hbound
    · rcases hlt q (List.mem_cons_self _ _) with heq2 | hq
      · subst heq2
        have hstep : topStep init (a, n) = (a, n) := by
          unfold topStep
          rw [if_pos]
          simpa using hinit
        rw [hstep]
        exact foldl_topStep_const l (a, n) hbound
      · have hstep2 : (topStep init q).2 < n := by
          unfold topStep
          split
          · exact hq
          · exact hinit
        exact ih (topStep init q) hmem'
          (fun p hp => hlt p (List.mem_cons_of_mem _ hp)) hstep2

theorem topOf_mem (l : List (String × Nat)) (hne : l ≠ [])
    (hpos : ∀ p ∈ l, 1 ≤ p.2) : topOf l ∈ l ∧ 1 ≤ (topOf l).2 := by
  obtain ⟨hmem, _, hall⟩ := foldl_topStep_spec l ("", 0)
  obtain ⟨q, l', rfl⟩ := List.exists_cons_of_ne_nil hne
  have hq : 1 ≤ (topOf (q :: l')).2 :=
    le_trans (hpos q (List.mem_cons_self _ _)) (hall q (List.mem_cons_self _ _))
  refine ⟨?_, hq⟩
  rcases hmem with h | h
  · exfalso
    have : (topOf (q :: l')).2 = 0 := by
      rw [topOf, h]
    omega
  · exact h

theorem topOf_uniqueMax (l : List (String × Nat)) (a : String) (n : Nat)
    (h : uniqueMax l a n) (hn : 0 < n) : topOf l = (a, n) :=
  foldl_topStep_uniqueMax a n l ("", 0) h.1 h.2 hn

theorem uniqueMax_perm (l l' : List (String × Nat)) (a : String) (n : Nat)
    (hp : l.Perm l') (h : uniqueMax l a n) : uniqueMax l' a n :=
  ⟨hp.mem_iff.mp h.1, fun p hpl => h.2 p (hp.mem_iff.mpr hpl)⟩

theorem ne_nil_of_sumVals_pos (m : List (String × Nat)) (h : 1 ≤ sumVals m) :
    m ≠ [] := by
  rintro rfl
  simp at h

/-! ### The change collection of getFilesInCommit -/

theorem nodup_append_singleton (l : List String) (x : String) (hnd : l.Nodup)
    (hx : x ∉ l) : (l ++ [x]).Nodup := by
  refine List.Nodup.append hnd (List.nodup_singleton x) ?_
  intro y hy hy2
  simp only [List.mem_singleton] at hy2
  subst hy2
  exact hx hy

/-- One change appends exactly its path when that path is nonempty and
unseen, and otherwise changes nothing (for the well formed changes go-git
produces). -/
theorem addChange_char (fs : List String) (ch : Change) (hwf : wfChange ch) :
    addChange (fs, fs) ch =
      if pathOfChange ch ≠ "" ∧ pathOfChange ch ∉ fs then
        (fs ++ [pathOfChange ch], fs ++ [pathOfChange ch])
      else (fs, fs) := by
  by_cases hf : ch.fromName = ""
  · by_cases ht : ch.toName = ""
    · simp [addChange, changeAction, hf, ht, pathOfChange]
    · by_cases hm : ch.toName ∈ fs <;>
        simp [addChange, changeAction, hf, ht, pathOfChange, hm]
  · by_cases ht : ch.toName = ""
    · by_cases hm : ch.fromName ∈ fs <;>
        simp [addChange, changeAction, hf, ht, pathOfChange, hm]
    · have heq : ch.fromName = ch.toName := by
        rcases hwf with h | h | h
        · exact h
        · exact absurd h hf
        · exact absurd h ht
      by_cases hm : ch.fromName ∈ fs
      · have hm2 : ch.toName ∈ fs := heq ▸ hm
        simp [addChange, changeAction, hf, ht, pathOfChange, hm, hm2]
      · simp [addChange, changeAction, hf, ht, pathOfChange, hm]

/-- The change loop keeps files and seen set equal, keeps them duplicate
free, and collects exactly the nonempty paths of the changes. -/
theorem collectChanges_spec (cl : List Change) :
    ∀ fs : List String, (∀ ch ∈ cl, wfChange ch) → fs.Nodup →
      ∃ gs : List String, cl.foldl addChange (fs, fs) = (gs, gs) ∧ gs.Nodup ∧
        ∀ x, x ∈ gs ↔ x ∈ fs ∨ (x ≠ "" ∧ ∃ ch ∈ cl, pathOfChange ch = x) := by
  induction cl with
  | nil =>
    intro fs _ hnd
    exact ⟨fs, rfl, hnd, by simp⟩
  | cons ch cl ih =>
    intro fs hwf hnd
    rw [List.foldl_cons, addChange_char fs ch (hwf ch (List.mem_cons_self _ _))]
    by_cases hc : pathOfChange ch ≠ "" ∧ pathOfChange ch ∉ fs
    · rw [if_pos hc]
      obtain ⟨gs, heq, hgnd, hmem⟩ :=
        ih (fs ++ [pathOfChange ch])
          (fun c hc2 => hwf c (List.mem_cons_of_mem _ hc2))
          (nodup_append_singleton fs (pathOfChange ch) hnd hc.2)
      refine ⟨gs, heq, hgnd, ?_⟩
      intro x
      have hxs : x ∈ fs ++ [pathOfChange ch] ↔ x ∈ fs ∨ x = pathOfChange ch := by simp
      rw [hmem x, hxs]
      simp only [List.mem_cons]
      constructor
      · rintro ((h | rfl) | ⟨hne, c, hcl, hcp⟩)
        · exact Or.inl h
        · exact Or.inr ⟨hc.1, ch, Or.inl rfl, rfl⟩
        · exact Or.inr ⟨hne, c, Or.inr hcl, hcp⟩
      · rintro (h | ⟨hne, c, hcl | hcl, hcp⟩)
        · exact Or.inl (Or.inl h)
        · exact Or.inl (Or.inr (hcl ▸ hcp.symm))
        · exact Or.inr ⟨hne, c, hcl, hcp⟩
    · rw [if_neg hc]
      obtain ⟨gs, heq, hgnd, hmem⟩ :=
        ih fs (fun c hc2 => hwf c (List.mem_cons_of_mem _ hc2)) hnd
      refine ⟨gs, heq, hgnd, ?_⟩
      intro x
      rw [hmem x]
      simp only [List.mem_cons]
      constructor
      · rintro (h | ⟨hne, c, hcl, hcp⟩)
        · exact Or.inl h
        · exact Or.inr ⟨hne, c, Or.inr hcl, hcp⟩
      · rintro (h | ⟨hne, c, hcl | hcl, hcp⟩)
        · exact Or.inl h
        · subst hcl
          rcases Decidable.not_and_iff_or_not.mp hc with h2 | h2
          · exact absurd (hcp ▸ hne) (by simpa using h2)
          · exact Or.inl (by
              have := Decidable.not_not.mp h2
              exact hcp ▸ this)
        · exact Or.inr ⟨hne, c, hcl, hcp⟩

theorem changedBy_cons (p : ParentFetch) (ps : List ParentFetch) (x : String) :
    changedBy (p :: ps) x
      ↔ (∃ ch ∈ parentChanges p, pathOfChange ch = x) ∨ changedBy ps x := by
  unfold changedBy
  constructor
  · rintro ⟨q, hq, ch, hch, hcp⟩
    rcases List.mem_cons.mp hq with rfl | hq
    · exact Or.inl ⟨ch, hch, hcp⟩
    · exact Or.inr ⟨q, hq, ch, hch, hcp⟩
  · rintro (⟨ch, hch, hcp⟩ | ⟨q, hq, ch, hch, hcp⟩)
    · exact ⟨p, List.mem_cons_self _ _, ch, hch, hcp⟩
    · exact ⟨q, List.mem_cons_of_mem _ hq, ch, hch, hcp⟩

/-- The parent loop, run from an arbitrary duplicate free prefix. -/
theorem collectParents_from_spec (ps : List ParentFetch) :
    ∀ fs : List String, (∀ p ∈ ps, ∀ ch ∈ parentChanges p, wfChange ch) → fs.Nodup →
      ∃ gs : List String, ps.foldl parentStep (fs, fs) = (gs, gs) ∧ gs.Nodup ∧
        ∀ x, x ∈ gs ↔ x ∈ fs ∨ (x ≠ "" ∧ changedBy ps x) := by
  induction ps with
  | nil =>
    intro fs _ hnd
    refine ⟨fs, rfl, hnd, ?_⟩
    intro x
    simp [changedBy]
  | cons p ps ih =>
    intro fs hwf hnd
    rw [List.foldl_cons]
    obtain ⟨gs1, heq1, hnd1, hmem1⟩ :=
      collectChanges_spec (parentChanges p) fs
        (hwf p (List.mem_cons_self _ _)) hnd
    rw [show parentStep (fs, fs) p = (gs1, gs1) from heq1]
    obtain ⟨gs, heq, hgnd, hmem⟩ :=
      ih gs1 (fun q hq => hwf q (List.mem_cons_of_mem _ hq)) hnd1
    refine ⟨gs, heq, hgnd, ?_⟩
    intro x
    rw [hmem x, hmem1 x, changedBy_cons]
    constructor
    · rintro ((h | ⟨hne, hch⟩) | ⟨hne, hcb⟩)
      · exact Or.inl h
      · exact Or.inr ⟨hne, Or.inl hch⟩
      · exact Or.inr ⟨hne, Or.inr hcb⟩
    · rintro (h | ⟨hne, hch | hcb⟩)
      · exact Or.inl (Or.inl h)
      · exact Or.inl (Or.inr ⟨hne, hch⟩)
      · exact Or.inr ⟨hne, hcb⟩

theorem collectParents_spec (ps : List ParentFetch)
    (hwf : ∀ p ∈ ps, ∀ ch ∈ parentChanges p, wfChange ch) :
    ∃ gs : List String, collectParents ps = (gs, gs) ∧ gs.Nodup ∧
      ∀ x, x ∈ gs ↔ (x ≠ "" ∧ changedBy ps x) := by
  obtain ⟨gs, heq, hgnd, hmem⟩ :=
    collectParents_from_spec ps [] hwf List.nodup_nil
  refine ⟨gs, heq, hgnd, ?_⟩
  intro x
  rw [hmem x]
  simp

/-! ### AnalyzeCommits -/

/-- The file list of a successfully diffed commit (empty on a diff error;
only read under a no-error hypothesis). -/
def commitFiles (rc : RawCommit) : List String :=
  match getFilesInCommit rc.gdata with
  | Except.ok fs => fs
  | Except.error _ => []

theorem analyzeLoop_error_nil (cs : List RawCommit) :
    ∀ (acc : List CommitInfo) (e : ACError),
      (analyzeLoop cs acc).2 = some e → (analyzeLoop cs acc).1 = [] := by
  induction cs with
  | nil =>
    intro acc e h
    simp [analyzeLoop] at h
  | cons rc cs ih =>
    intro acc e h
    cases hg : getFilesInCommit rc.gdata with
    | error u =>
      simp [analyzeLoop, hg]
    | ok fs =>
      have hstep : analyzeLoop (rc :: cs) acc
          = analyzeLoop cs (acc ++ [mkCommitInfo rc fs]) := by
        simp [analyzeLoop, hg]
      rw [hstep] at h ⊢
      exact ih _ e h

theorem analyzeLoop_fail_some (cs : List RawCommit) :
    ∀ acc : List CommitInfo,
      (∃ rc ∈ cs, (getFilesInCommit rc.gdata).isOk = false) →
      ((analyzeLoop cs acc).2).isSome = true := by
  induction cs with
  | nil =>
    intro acc h
    obtain ⟨rc, hrc, _⟩ := h
    simp at hrc
  | cons rc cs ih =>
    intro acc h
    obtain ⟨rc', hrc', herr⟩ := h
    rcases List.mem_cons.mp hrc' with rfl | hmem
    · cases hg : getFilesInCommit rc'.gdata with
      | error u =>
        simp [analyzeLoop, hg]
      | ok fs =>
        rw [hg] at herr
        simp [Except.isOk, Except.toBool] at herr
    · cases hg : getFilesInCommit rc.gdata with
      | error u =>
        simp [analyzeLoop, hg]
      | ok fs =>
        have hstep : analyzeLoop (rc :: cs) acc
            = analyzeLoop cs (acc ++ [mkCommitInfo rc fs]) := by
          simp [analyzeLoop, hg]
        rw [hstep]
        exact ih _ ⟨rc', hmem, herr⟩

theorem analyzeLoop_ok (cs : List RawCommit) :
    ∀ acc : List CommitInfo,
      (∀ rc ∈ cs, (getFilesInCommit rc.gdata).isOk = true) →
      analyzeLoop cs acc
        = (acc ++ cs.map (fun rc => mkCommitInfo rc (commitFiles rc)), none) := by
  induction cs with
  | nil =>
    intro acc _
    simp [analyzeLoop]
  | cons rc cs ih =>
    intro acc hok
    cases hg : getFilesInCommit rc.gdata with
    | error u =>
      have := hok rc (List.mem_cons_self _ _)
      rw [hg] at this
      simp [Except.isOk, Except.toBool] at this
    | ok fs =>
      have hcf : commitFiles rc = fs := by
        simp [commitFiles, hg]
      have hstep : analyzeLoop (rc :: cs) acc
          = analyzeLoop cs (acc ++ [mkCommitInfo rc fs]) := by
        simp [analyzeLoop, hg]
      rw [hstep, ih _ (fun rc' hrc' => hok rc' (List.mem_cons_of_mem _ hrc'))]
      simp [hcf]

/-! ### Hotspot construction helpers -/

@[simp]
theorem mkHotspot_path (pc : String × Nat) (l : List (String × Nat)) :
    (mkHotspot pc l).path = pc.1 := rfl

@[simp]
theorem mkHotspot_commits (pc : String × Nat) (l : List (String × Nat)) :
    (mkHotspot pc l).commits = pc.2 := rfl

@[simp]
theorem mkHotspot_topContributor (pc : String × Nat) (l : List (String × Nat)) :
    (mkHotspot pc l).topContributor = (topOf l).1 := rfl

@[simp]
theorem mkHotspot_authorCommits (pc : String × Nat) (l : List (String × Nat)) :
    (mkHotspot pc l).authorCommits = (topOf l).2 := rfl

theorem identifyHotspots_fst (cs : List CommitInfo) :
    (IdentifyHotspots cs).1 = (aggregate cs).fileCommits.map
      (fun pc => mkHotspot pc (lookupAuthors (aggregate cs).fileAuthors pc.1)) := rfl

theorem identifyHotspots_snd (cs : List CommitInfo) :
    (IdentifyHotspots cs).2 = (aggregate cs).dirCommits.map
      (fun pc => mkHotspot pc (lookupAuthors (aggregate cs).dirAuthors pc.1)) := rfl

theorem map_path_mkHotspot (m : List (String × Nat))
    (g : String → List (String × Nat)) :
    ((m.map (fun pc => mkHotspot pc (g pc.1))).map Hotspot.path) = keysOf m := by
  induction m with
  | nil => rfl
  | cons pc m ih =>
    simp only [List.map_cons, mkHotspot_path, keysOf_cons]
    rw [show keysOf (pc :: m) = pc.1 :: keysOf m from rfl]
    rw [ih]

theorem filter_map_mkHotspot (m : List (String × Nat))
    (g : String → List (String × Nat)) (d : String) :
    (((m.map (fun pc => mkHotspot pc (g pc.1))).filter
        (fun h => decide (filepathDir h.path = d))).map Hotspot.commits)
      = ((m.filter (fun pc => decide (filepathDir pc.1 = d))).map Prod.snd) := by
  induction m with
  | nil => rfl
  | cons pc m ih =>
    by_cases hp : filepathDir pc.1 = d
    · simp [List.filter_cons, hp, ih]
    · simp [List.filter_cons, hp, ih]

theorem countP_eq_ite_mem (l : List String) (p : String) (hnd : l.Nodup) :
    l.countP (fun f => decide (p = f)) = if p ∈ l then 1 else 0 := by
  induction l with
  | nil => simp
  | cons a l ih =>
    rw [List.countP_cons]
    have hnd2 : l.Nodup := (List.nodup_cons.mp hnd).2
    have hna : a ∉ l := (List.nodup_cons.mp hnd).1
    by_cases hp : p = a
    · subst hp
      have h0 : l.countP (fun f => decide (p = f)) = 0 := by
        rw [List.countP_eq_zero]
        intro x hx
        simp only [decide_eq_true_eq]
        rintro rfl
        exact hna hx
      rw [h0]
      simp
    · rw [ih hnd2]
      by_cases hm : p ∈ l <;> simp [hp, hm]

theorem sum_countP_eq_filter_length (cs : List CommitInfo) (p : String)
    (hnd : ∀ c ∈ cs, c.files.Nodup) :
    (cs.map (fun c => c.files.countP (fun f => decide (p = f)))).sum
      = (cs.filter (fun c => decide (p ∈ c.files))).length := by
  induction cs with
  | nil => rfl
  | cons c cs ih =>
    have hnd2 := fun c' hc' => hnd c' (List.mem_cons_of_mem _ hc')
    have h1 : c.files.countP (fun f => decide (p = f)) = if p ∈ c.files then 1 else 0 :=
      countP_eq_ite_mem _ _ (hnd c (List.mem_cons_self _ _))
    rw [List.map_cons, List.sum_cons, ih hnd2, h1, List.filter_cons]
    by_cases hm : p ∈ c.files <;> simp [hm] <;> omega

theorem sum_author_countP_eq_filter_length (cs : List CommitInfo) (p a : String)
    (hnd : ∀ c ∈ cs, c.files.Nodup) :
    (cs.map (fun c =>
        if a = c.author then c.files.countP (fun f => decide (p = f)) else 0)).sum
      = (cs.filter (fun c => decide (c.author = a ∧ p ∈ c.files))).length := by
  induction cs with
  | nil => rfl
  | cons c cs ih =>
    have hnd2 := fun c' hc' => hnd c' (List.mem_cons_of_mem _ hc')
    have h1 : c.files.countP (fun f => decide (p = f)) = if p ∈ c.files then 1 else 0 :=
      countP_eq_ite_mem _ _ (hnd c (List.mem_cons_self _ _))
    rw [List.map_cons, List.sum_cons, ih hnd2, List.filter_cons]
    by_cases ha : a = c.author
    · have ha2 : c.author = a := ha.symm
      rw [if_pos ha, h1]
      by_cases hm : p ∈ c.files
      · rw [if_pos hm, if_pos (by simp [ha2, hm])]
        simp
        omega
      · rw [if_neg hm, if_neg (by simp [ha2, hm])]
        simp
    · have ha2 : ¬ (c.author = a) := fun hh => ha hh.symm
      rw [if_neg ha, if_neg (by simp [ha2])]
      simp

/-! ### Test fixtures (from the repository test data) -/

/-- The three commit fixture of TestIdentifyHotspots. -/
def exampleCommits : List CommitInfo :=
  [⟨"hash1", "Test User", 0, "Commit 1", ["fileA.txt", "dir1/fileB.txt"]⟩,
   ⟨"hash2", "Another User", 0, "Commit 2", ["fileA.txt", "dir2/fileC.txt"]⟩,
   ⟨"hash3", "Test User", 0, "Commit 3", ["fileA.txt", "dir1/fileD.txt"]⟩]

/-- One commit touching two files of the same directory. -/
def dirPairCommit : List CommitInfo :=
  [⟨"h1", "alice", 0, "m", ["dir1/p.txt", "dir1/q.txt"]⟩]

/-! ### Claims C1, C2, C10 -/

/-- C1: for every commit sequence, IdentifyHotspots produces exactly one file
entry per distinct path occurring in any changed path list (none dropped,
none duplicated); and, when each record carries a duplicate free path list,
each entry counts the records containing its path and the per-author touch
count of author a at path p counts the records of author a containing p. -/
theorem identifyHotspots_file_entries (cs : List CommitInfo)
    (hnd : ∀ c ∈ cs, c.files.Nodup) :
    (((IdentifyHotspots cs).1.map Hotspot.path).Nodup)
    ∧ (∀ p, p ∈ (IdentifyHotspots cs).1.map Hotspot.path ↔ ∃ c ∈ cs, p ∈ c.files)
    ∧ (∀ e ∈ (IdentifyHotspots cs).1,
        e.commits = (cs.filter (fun c => decide (e.path ∈ c.files))).length)
    ∧ (∀ p a, lookupCount (lookupAuthors (aggregate cs).fileAuthors p) a
        = (cs.filter (fun c => decide (c.author = a ∧ p ∈ c.files))).length) := by
  refine ⟨?_, ?_, ?_, ?_⟩
  · rw [identifyHotspots_fst, map_path_mkHotspot]
    exact nodup_keysOf_aggregate_fileCommits cs
  · intro p
    rw [identifyHotspots_fst, map_path_mkHotspot]
    exact mem_keysOf_aggregate_fileCommits cs p
  · intro e he
    rw [identifyHotspots_fst] at he
    obtain ⟨⟨p, n⟩, hpc, rfl⟩ := List.mem_map.mp he
    have h1 : lookupCount (aggregate cs).fileCommits p = n :=
      lookupCount_eq_of_mem _ _ _ (nodup_keysOf_aggregate_fileCommits cs) hpc
    rw [mkHotspot_commits, mkHotspot_path]
    rw [← h1, lookupCount_aggregate_fileCommits, sum_countP_eq_filter_length cs p hnd]
  · intro p a
    rw [lookupCount_aggregate_fileAuthors, sum_author_countP_eq_filter_length cs p a hnd]

/-- C1 witness: the theorem applied to the repository test fixture. -/
theorem identifyHotspots_file_entries_witness :
    (∀ c ∈ exampleCommits, c.files.Nodup)
    ∧ ((((IdentifyHotspots exampleCommits).1.map Hotspot.path).Nodup)
      ∧ (∀ p, p ∈ (IdentifyHotspots exampleCommits).1.map Hotspot.path
          ↔ ∃ c ∈ exampleCommits, p ∈ c.files)
      ∧ (∀ e ∈ (IdentifyHotspots exampleCommits).1,
          e.commits = (exampleCommits.filter (fun c => decide (e.path ∈ c.files))).length)
      ∧ (∀ p a, lookupCount (lookupAuthors (aggregate exampleCommits).fileAuthors p) a
          = (exampleCommits.filter
              (fun c => decide (c.author = a ∧ p ∈ c.files))).length)) :=
  ⟨by decide, identifyHotspots_file_entries exampleCommits (by decide)⟩

/-- C2: every directory entry is keyed by the immediate parent directory of
some changed path and never by "." (root level files contribute to no
directory entry), and its count is the total number of file touches into the
directory, one per changed file per commit, so one commit touching two files
of one directory contributes 2. -/
theorem identifyHotspots_dir_aggregation (cs : List CommitInfo) :
    (∀ e ∈ (IdentifyHotspots cs).2, e.path ≠ "." ∧
        e.commits = (cs.map (fun c =>
          c.files.countP (fun f => decide (filepathDir f = e.path)))).sum)
    ∧ (∀ d, d ∈ (IdentifyHotspots cs).2.map Hotspot.path
        ↔ (d ≠ "." ∧ ∃ c ∈ cs, ∃ f ∈ c.files, filepathDir f = d)) := by
  constructor
  · intro e he
    rw [identifyHotspots_snd] at he
    obtain ⟨⟨p, n⟩, hpc, rfl⟩ := List.mem_map.mp he
    have hkey : p ∈ keysOf (aggregate cs).dirCommits :=
      List.mem_map.mpr ⟨(p, n), hpc, rfl⟩
    have hnd : p ≠ "." := by
      intro hdot
      exact ((mem_keysOf_aggregate_dirCommits cs p).mp hkey).1 hdot
    have h1 : lookupCount (aggregate cs).dirCommits p = n :=
      lookupCount_eq_of_mem _ _ _ (nodup_keysOf_aggregate_dirCommits cs) hpc
    refine ⟨by simpa using hnd, ?_⟩
    rw [mkHotspot_commits, mkHotspot_path, ← h1,
      lookupCount_aggregate_dirCommits cs p hnd]
  · intro d
    rw [identifyHotspots_snd, map_path_mkHotspot]
    exact mem_keysOf_aggregate_dirCommits cs d

/-- C2 witness: one commit touching dir1/p.txt and dir1/q.txt yields the
dir1 entry with count 2. -/
theorem identifyHotspots_dir_aggregation_witness :
    (Hotspot.mk "dir1" 2 "alice" 2).path ≠ "." ∧
    (Hotspot.mk "dir1" 2 "alice" 2).commits
      = (dirPairCommit.map (fun c =>
          c.files.countP (fun f =>
            decide (filepathDir f = (Hotspot.mk "dir1" 2 "alice" 2).path)))).sum :=
  (identifyHotspots_dir_aggregation dirPairCommit).1
    (Hotspot.mk "dir1" 2 "alice" 2) (by decide)

/-- C10: each directory entry counts exactly the sum of the counts of the
file entries whose immediate parent directory is that directory. -/
theorem identifyHotspots_dir_totals (cs : List CommitInfo) :
    ∀ e ∈ (IdentifyHotspots cs).2,
      e.commits = (((IdentifyHotspots cs).1.filter
          (fun fe => decide (filepathDir fe.path = e.path))).map Hotspot.commits).sum := by
  have inv := aggInv_aggregate (fun _ => True) cs (fun _ _ => trivial)
  intro e he
  rw [identifyHotspots_snd] at he
  obtain ⟨⟨p, n⟩, hpc, rfl⟩ := List.mem_map.mp he
  have hkey : p ∈ keysOf (aggregate cs).dirCommits :=
    List.mem_map.mpr ⟨(p, n), hpc, rfl⟩
  have hnd : p ≠ "." := by
    intro hdot
    exact inv.noDot (hdot ▸ hkey)
  have h1 : lookupCount (aggregate cs).dirCommits p = n :=
    lookupCount_eq_of_mem _ _ _ inv.nodupDir hpc
  have h2 := inv.dirSum p hnd
  rw [identifyHotspots_fst, mkHotspot_commits, mkHotspot_path,
    filter_map_mkHotspot]
  have : (((aggregate cs).fileCommits.filter
      (fun pc => decide (filepathDir pc.1 = p))).map Prod.snd).sum
      = sumVals ((aggregate cs).fileCommits.filter
          (fun pc => decide (filepathDir pc.1 = p))) := rfl
  rw [this, ← h2, h1]

/-- C10 witness: the theorem applied to the repository test fixture at the
dir1 entry. -/
theorem identifyHotspots_dir_totals_witness :
    (Hotspot.mk "dir1" 2 "Test User" 2).commits
      = (((IdentifyHotspots exampleCommits).1.filter
          (fun fe => decide (filepathDir fe.path = (Hotspot.mk "dir1" 2 "Test User" 2).path))).map
            Hotspot.commits).sum :=
  identifyHotspots_dir_totals exampleCommits (Hotspot.mk "dir1" 2 "Test User" 2) (by decide)

/-- IdentifyHotspots is the run of the hotspot construction that reads every
author map in insertion order. -/
theorem identifyHotspots_eq_run (cs : List CommitInfo) :
    IdentifyHotspots cs = identifyHotspotsRun cs
      (fun p => lookupAuthors (aggregate cs).fileAuthors p)
      (fun p => lookupAuthors (aggregate cs).dirAuthors p) := rfl

instance decidableUniqueMax (l : List (String × Nat)) (a : String) (n : Nat) :
    Decidable (uniqueMax l a n) :=
  decidable_of_iff ((a, n) ∈ l ∧ ∀ p ∈ l, p = (a, n) ∨ p.2 < n) Iff.rfl

/-! ### Claims C5, C9, C8 -/

/-- C5: for every file or directory entry whose author map has a unique
maximum, the entry names that author as top contributor with exactly that
touch count. -/
theorem identifyHotspots_top_contributor (cs : List CommitInfo) :
    (∀ e ∈ (IdentifyHotspots cs).1, ∀ a n,
        uniqueMax (lookupAuthors (aggregate cs).fileAuthors e.path) a n →
        e.topContributor = a ∧ e.authorCommits = n)
    ∧ (∀ e ∈ (IdentifyHotspots cs).2, ∀ a n,
        uniqueMax (lookupAuthors (aggregate cs).dirAuthors e.path) a n →
        e.topContributor = a ∧ e.authorCommits = n) := by
  have inv := aggInv_aggregate (fun _ => True) cs (fun _ _ => trivial)
  constructor
  · intro e he a n hum
    rw [identifyHotspots_fst] at he
    obtain ⟨⟨p, n'⟩, hpc, rfl⟩ := List.mem_map.mp he
    rw [mkHotspot_path] at hum
    have hn : 0 < n := inv.posFileA p (a, n) hum.1
    have htop := topOf_uniqueMax _ a n hum hn
    rw [mkHotspot_topContributor, mkHotspot_authorCommits, htop]
    exact ⟨rfl, rfl⟩
  · intro e he a n hum
    rw [identifyHotspots_snd] at he
    obtain ⟨⟨p, n'⟩, hpc, rfl⟩ := List.mem_map.mp he
    rw [mkHotspot_path] at hum
    have hn : 0 < n := inv.posDirA p (a, n) hum.1
    have htop := topOf_uniqueMax _ a n hum hn
    rw [mkHotspot_topContributor, mkHotspot_authorCommits, htop]
    exact ⟨rfl, rfl⟩

/-- C5 witness: on the test fixture, fileA.txt has the unique maximum
(Test User, 2) and the produced entry names it. -/
theorem identifyHotspots_top_contributor_witness :
    (Hotspot.mk "fileA.txt" 3 "Test User" 2).topContributor = "Test User" ∧
    (Hotspot.mk "fileA.txt" 3 "Test User" 2).authorCommits = 2 :=
  (identifyHotspots_top_contributor exampleCommits).1
    (Hotspot.mk "fileA.txt" 3 "Test User" 2) (by decide) "Test User" 2 (by decide)

/-- C9: every produced entry has 1 <= AuthorCommits <= Commits and, when
every input author is nonempty, a nonempty TopContributor. -/
theorem identifyHotspots_entry_bounds (cs : List CommitInfo)
    (hauth : ∀ c ∈ cs, c.author ≠ "") :
    ∀ e, (e ∈ (IdentifyHotspots cs).1 ∨ e ∈ (IdentifyHotspots cs).2) →
      1 ≤ e.authorCommits ∧ e.authorCommits ≤ e.commits ∧ e.topContributor ≠ "" := by
  have inv := aggInv_aggregate (fun x => x ≠ "") cs hauth
  intro e he
  rcases he with he | he
  · rw [identifyHotspots_fst] at he
    obtain ⟨⟨p, n⟩, hpc, rfl⟩ := List.mem_map.mp he
    have hlk : lookupCount (aggregate cs).fileCommits p = n :=
      lookupCount_eq_of_mem _ _ _ inv.nodupFile hpc
    have hsum : sumVals (lookupAuthors (aggregate cs).fileAuthors p) = n :=
      (inv.sumFile p).trans hlk
    have hpos : 1 ≤ n := inv.posFile (p, n) hpc
    have hnn : lookupAuthors (aggregate cs).fileAuthors p ≠ [] :=
      ne_nil_of_sumVals_pos _ (hsum ▸ hpos)
    obtain ⟨hm, h1⟩ := topOf_mem _ hnn (inv.posFileA p)
    refine ⟨by simpa using h1, ?_, ?_⟩
    · have h2 := le_sumVals_of_mem _ _ hm
      rw [mkHotspot_authorCommits, mkHotspot_commits]
      exact le_trans h2 (le_of_eq hsum)
    · have h3 := inv.authFileA p _ hm
      simpa using h3
  · rw [identifyHotspots_snd] at he
    obtain ⟨⟨p, n⟩, hpc, rfl⟩ := List.mem_map.mp he
    have hlk : lookupCount (aggregate cs).dirCommits p = n :=
      lookupCount_eq_of_mem _ _ _ inv.nodupDir hpc
    have hsum : sumVals (lookupAuthors (aggregate cs).dirAuthors p) = n :=
      (inv.sumDir p).trans hlk
    have hpos : 1 ≤ n := inv.posDir (p, n) hpc
    have hnn : lookupAuthors (aggregate cs).dirAuthors p ≠ [] :=
      ne_nil_of_sumVals_pos _ (hsum ▸ hpos)
    obtain ⟨hm, h1⟩ := topOf_mem _ hnn (inv.posDirA p)
    refine ⟨by simpa using h1, ?_, ?_⟩
    · have h2 := le_sumVals_of_mem _ _ hm
      rw [mkHotspot_authorCommits, mkHotspot_commits]
      exact le_trans h2 (le_of_eq hsum)
    · have h3 := inv.authDirA p _ hm
      simpa using h3

/-- C9 witness: the theorem applied to the test fixture at the fileA.txt
entry. -/
theorem identifyHotspots_entry_bounds_witness :
    1 ≤ (Hotspot.mk "fileA.txt" 3 "Test User" 2).authorCommits
    ∧ (Hotspot.mk "fileA.txt" 3 "Test User" 2).authorCommits
        ≤ (Hotspot.mk "fileA.txt" 3 "Test User" 2).commits
    ∧ (Hotspot.mk "fileA.txt" 3 "Test User" 2).topContributor ≠ "" :=
  identifyHotspots_entry_bounds exampleCommits (by decide)
    (Hotspot.mk "fileA.txt" 3 "Test User" 2) (Or.inl (by decide))

/-- Two authors with equal touch counts on one root level file: an author
tie. -/
def tieCommits : List CommitInfo :=
  [⟨"h1", "alice", 0, "m1", ["a.txt"]⟩, ⟨"h2", "bob", 0, "m2", ["a.txt"]⟩]

/-- The canonical (insertion order) file author map of the tie fixture. -/
def tieOrd1 : String → List (String × Nat) :=
  fun p => lookupAuthors (aggregate tieCommits).fileAuthors p

/-- The reversed iteration order of the same author map: another order a Go
map range may produce on another run. -/
def tieOrd2 : String → List (String × Nat) :=
  fun p => (lookupAuthors (aggregate tieCommits).fileAuthors p).reverse

/-- The canonical directory author map of the tie fixture (empty). -/
def tieDirOrd : String → List (String × Nat) :=
  fun p => lookupAuthors (aggregate tieCommits).dirAuthors p

/-- C8 counterexample: two valid runs of the aggregation on the same
extracted commits (differing only in the unspecified map iteration order)
produce file entry collections that are not equal even as unordered
collections: one names alice as top contributor, the other bob. -/
theorem identifyHotspots_runs_differ :
    validRun tieCommits tieOrd1 tieDirOrd ∧ validRun tieCommits tieOrd2 tieDirOrd ∧
    ¬ ((identifyHotspotsRun tieCommits tieOrd1 tieDirOrd).1.Perm
        (identifyHotspotsRun tieCommits tieOrd2 tieDirOrd).1) := by
  refine ⟨⟨fun p => List.Perm.refl _, fun p => List.Perm.refl _⟩,
          ⟨fun p => List.reverse_perm _, fun p => List.Perm.refl _⟩, ?_⟩
  decide

/-- C8 amended: when every aggregated path has a unique maximal author, any
two valid runs produce identical hotspot tables, so re-running extraction
and aggregation on an unchanged repository state is idempotent up to entry
order; under an author tie the top contributor may differ between runs. -/
theorem identifyHotspots_run_deterministic (cs : List CommitInfo)
    (fo1 do1 fo2 do2 : String → List (String × Nat))
    (h1 : validRun cs fo1 do1) (h2 : validRun cs fo2 do2)
    (hf : ∀ p ∈ keysOf (aggregate cs).fileCommits,
        ∃ an ∈ lookupAuthors (aggregate cs).fileAuthors p,
          uniqueMax (lookupAuthors (aggregate cs).fileAuthors p) an.1 an.2)
    (hd : ∀ p ∈ keysOf (aggregate cs).dirCommits,
        ∃ an ∈ lookupAuthors (aggregate cs).dirAuthors p,
          uniqueMax (lookupAuthors (aggregate cs).dirAuthors p) an.1 an.2) :
    identifyHotspotsRun cs fo1 do1 = identifyHotspotsRun cs fo2 do2 := by
  have inv := aggInv_aggregate (fun _ => True) cs (fun _ _ => trivial)
  unfold identifyHotspotsRun
  refine Prod.ext ?_ ?_
  · dsimp only
    refine List.map_congr_left ?_
    intro pc hpc
    obtain ⟨an, hanmem, hum⟩ := hf pc.1 (List.mem_map.mpr ⟨pc, hpc, rfl⟩)
    have hn : 0 < an.2 := inv.posFileA pc.1 an hanmem
    have e1 : topOf (fo1 pc.1) = (an.1, an.2) :=
      topOf_uniqueMax _ _ _ (uniqueMax_perm _ _ _ _ (h1.1 pc.1).symm hum) hn
    have e2 : topOf (fo2 pc.1) = (an.1, an.2) :=
      topOf_uniqueMax _ _ _ (uniqueMax_perm _ _ _ _ (h2.1 pc.1).symm hum) hn
    unfold mkHotspot
    rw [e1, e2]
  · dsimp only
    refine List.map_congr_left ?_
    intro pc hpc
    obtain ⟨an, hanmem, hum⟩ := hd pc.1 (List.mem_map.mpr ⟨pc, hpc, rfl⟩)
    have hn : 0 < an.2 := inv.posDirA pc.1 an hanmem
    have e1 : topOf (do1 pc.1) = (an.1, an.2) :=
      topOf_uniqueMax _ _ _ (uniqueMax_perm _ _ _ _ (h1.2 pc.1).symm hum) hn
    have e2 : topOf (do2 pc.1) = (an.1, an.2) :=
      topOf_uniqueMax _ _ _ (uniqueMax_perm _ _ _ _ (h2.2 pc.1).symm hum) hn
    unfold mkHotspot
    rw [e1, e2]

/-- A single author fixture: every path has a unique maximal author. -/
def soloCommit : List CommitInfo := [⟨"h1", "alice", 0, "m", ["d/a.txt"]⟩]

/-- C8 witness: on the unique maximum fixture two differently ordered valid
runs agree. -/
theorem identifyHotspots_run_deterministic_witness :
    identifyHotspotsRun soloCommit
        (fun p => lookupAuthors (aggregate soloCommit).fileAuthors p)
        (fun p => lookupAuthors (aggregate soloCommit).dirAuthors p)
      = identifyHotspotsRun soloCommit
        (fun p => (lookupAuthors (aggregate soloCommit).fileAuthors p).reverse)
        (fun p => (lookupAuthors (aggregate soloCommit).dirAuthors p).reverse) :=
  identifyHotspots_run_deterministic soloCommit _ _ _ _
    ⟨fun p => List.Perm.refl _, fun p => List.Perm.refl _⟩
    ⟨fun p => List.reverse_perm _, fun p => List.reverse_perm _⟩
    (by decide) (by decide)

instance decidableWfChange (ch : Change) : Decidable (wfChange ch) :=
  decidable_of_iff (ch.fromName = ch.toName ∨ ch.fromName = "" ∨ ch.toName = "") Iff.rfl

/-! ### Claims C3, C6 -/

/-- C3: for a commit with parents whose traversal yields at least one changed
path, getFilesInCommit returns exactly the deduplicated union of the paths
named by the per-parent structural diffs: each such path appears exactly
once (the list is duplicate free) no matter how many parents name it. -/
theorem getFilesInCommit_merge_union (c : GCommit)
    (ht : c.treeErr = false)
    (hp : c.parents ≠ [])
    (hwf : ∀ p ∈ c.parents, ∀ ch ∈ parentChanges p, wfChange ch)
    (hne : ∃ x, x ≠ "" ∧ changedBy c.parents x) :
    ∃ fs, getFilesInCommit c = Except.ok fs ∧ fs.Nodup ∧
      ∀ x, x ∈ fs ↔ (x ≠ "" ∧ changedBy c.parents x) := by
  obtain ⟨gs, heq, hgnd, hmem⟩ := collectParents_spec c.parents hwf
  have hgs : gs ≠ [] := by
    obtain ⟨x, hx⟩ := hne
    intro h0
    have := (hmem x).mpr hx
    rw [h0] at this
    simp at this
  have hlen : ¬ (c.parents.length = 0) := by
    simpa [List.length_eq_zero] using hp
  refine ⟨gs, ?_, hgnd, hmem⟩
  unfold getFilesInCommit
  rw [if_neg (by simp [ht]), if_neg hlen, heq]
  simp [hgs]

/-- The merge fixture: the diff against parent 1 names a, the diff against
parent 2 names a and b. -/
def mergeCommit : GCommit :=
  ⟨false, false, ["a", "b"],
   [ParentFetch.ok [⟨"a", "a"⟩], ParentFetch.ok [⟨"a", "a"⟩, ⟨"b", "b"⟩]]⟩

/-- C3 witness: the theorem applied to the merge fixture. -/
theorem getFilesInCommit_merge_union_witness :
    ∃ fs, getFilesInCommit mergeCommit = Except.ok fs ∧ fs.Nodup ∧
      ∀ x, x ∈ fs ↔ (x ≠ "" ∧ changedBy mergeCommit.parents x) :=
  getFilesInCommit_merge_union mergeCommit rfl (by decide) (by decide)
    ⟨"a", by decide,
      ParentFetch.ok [Change.mk "a" "a"], by decide,
      Change.mk "a" "a", by decide, by decide⟩

/-- C6 counterexample: a commit with a parent whose lookup fails and an
empty tree snapshot contributes the empty change set, refuting that no
commit ever contributes an empty change set. -/
theorem getFilesInCommit_empty_change_set :
    (GCommit.mk false false [] [ParentFetch.notFound]).parents ≠ [] ∧
    getFilesInCommit (GCommit.mk false false [] [ParentFetch.notFound])
      = Except.ok [] := by
  constructor
  · decide
  · rfl

/-- C6 amended: a commit with zero parents yields its full tree snapshot, a
commit with parents whose traversal yields no changed path falls back to the
same full tree enumeration, and hence a commit contributes an empty change
set only when its tree snapshot is itself empty. -/
theorem getFilesInCommit_fallback (c : GCommit)
    (ht : c.treeErr = false) (he : c.enumErr = false) :
    (c.parents = [] → getFilesInCommit c = Except.ok c.treeFiles)
    ∧ ((collectParents c.parents).1 = [] → getFilesInCommit c = Except.ok c.treeFiles)
    ∧ (c.treeFiles ≠ [] → ∀ fs, getFilesInCommit c = Except.ok fs → fs ≠ []) := by
  refine ⟨?_, ?_, ?_⟩
  · intro hp
    simp [getFilesInCommit, ht, he, hp]
  · intro hc
    by_cases hp : c.parents.length = 0
    · simp [getFilesInCommit, ht, he, hp]
    · simp [getFilesInCommit, ht, he, hp, hc]
  · intro htf fs hfs
    by_cases hp : c.parents.length = 0
    · simp [getFilesInCommit, ht, he, hp] at hfs
      rw [← hfs]
      exact htf
    · by_cases hc : (collectParents c.parents).1 = []
      · simp [getFilesInCommit, ht, he, hp, hc] at hfs
        rw [← hfs]
        exact htf
      · simp [getFilesInCommit, ht, he, hp, hc] at hfs
        rw [← hfs]
        exact hc

/-- The fallback fixture: one failing parent lookup and a nonempty tree. -/
def fallbackCommit : GCommit := ⟨false, false, ["t1", "t2"], [ParentFetch.notFound]⟩

/-- C6 witness: the amended theorem applied to the fallback fixture. -/
theorem getFilesInCommit_fallback_witness :
    getFilesInCommit fallbackCommit = Except.ok fallbackCommit.treeFiles :=
  (getFilesInCommit_fallback fallbackCommit rfl rfl).2.1 rfl

/-! ### Claims C7, C4 -/

/-- C7: AnalyzeCommits is all or nothing: it reports an error when opening
the repository fails, when head resolution fails, when starting the log walk
fails, or when the diff of some walked commit fails; and whenever it reports
an error it returns the empty record list, never a partial one. -/
theorem analyzeCommits_all_or_nothing (r : RepoModel) :
    ((r.openOk = false ∨ r.headOk = false ∨ r.logOk = false ∨
        (∃ rc ∈ sinceFilter r.since r.commits,
          (getFilesInCommit rc.gdata).isOk = false)) →
      ((AnalyzeCommits r).2).isSome = true)
    ∧ (∀ e : ACError, (AnalyzeCommits r).2 = some e → (AnalyzeCommits r).1 = []) := by
  constructor
  · intro h
    by_cases ho : r.openOk = true
    · by_cases hh : r.headOk = true
      · by_cases hl : r.logOk = true
        · have hex : ∃ rc ∈ sinceFilter r.since r.commits,
              (getFilesInCommit rc.gdata).isOk = false := by
            rcases h with h | h | h | h
            · rw [h] at ho; exact absurd ho (by simp)
            · rw [h] at hh; exact absurd hh (by simp)
            · rw [h] at hl; exact absurd hl (by simp)
            · exact h
          have hsome := analyzeLoop_fail_some (sinceFilter r.since r.commits) [] hex
          simpa [AnalyzeCommits, ho, hh, hl] using hsome
        · simp [AnalyzeCommits, ho, hh, hl]
      · simp [AnalyzeCommits, ho, hh]
    · simp [AnalyzeCommits, ho]
  · intro e he
    by_cases ho : r.openOk = true
    · by_cases hh : r.headOk = true
      · by_cases hl : r.logOk = true
        · have hred : AnalyzeCommits r = analyzeLoop (sinceFilter r.since r.commits) [] := by
            simp [AnalyzeCommits, ho, hh, hl]
          rw [hred] at he ⊢
          exact analyzeLoop_error_nil _ _ e he
        · simp [AnalyzeCommits, ho, hh, hl]
      · simp [AnalyzeCommits, ho, hh]
    · simp [AnalyzeCommits, ho]

/-- A repository that cannot be opened. -/
def repoFail : RepoModel := ⟨false, true, true, 0, []⟩

/-- C7 witness: the theorem applied to the unopenable repository. -/
theorem analyzeCommits_all_or_nothing_witness :
    ((AnalyzeCommits repoFail).2).isSome = true ∧ (AnalyzeCommits repoFail).1 = [] :=
  ⟨(analyzeCommits_all_or_nothing repoFail).1 (Or.inl rfl),
   (analyzeCommits_all_or_nothing repoFail).2 ACError.repoAccess (by rfl)⟩

/-- A repository with one commit whose author and committer timestamps both
equal the one year cutoff exactly. -/
def repoBoundary : RepoModel :=
  ⟨true, true, true, 1000,
   [⟨"h1", "alice", 1000, 1000, "m", ⟨false, false, ["a.txt"], []⟩⟩]⟩

/-- C4 counterexample: the commit whose timestamp is exactly at the one year
cutoff is included in the extraction result (the claim says it must be
excluded): the run returns that one record and no error. -/
theorem analyzeCommits_boundary_included :
    (AnalyzeCommits repoBoundary).1
      = [CommitInfo.mk "h1" "alice" 1000 "m" ["a.txt"]]
    ∧ (AnalyzeCommits repoBoundary).2 = none := by
  constructor
  · rfl
  · rfl

/-- C4 amended: on a repository where opening, head resolution and the log
walk succeed and every walked diff succeeds, the records are exactly the
commits whose committer timestamp is at or after the cutoff, in walk order:
a commit strictly before the cutoff is excluded, one at or after it
(including exactly at it) is included, and the filter reads the committer
timestamp, not the author one. -/
theorem analyzeCommits_window (r : RepoModel)
    (ho : r.openOk = true) (hh : r.headOk = true) (hl : r.logOk = true)
    (hok : ∀ rc ∈ r.commits, (getFilesInCommit rc.gdata).isOk = true) :
    AnalyzeCommits r
      = ((r.commits.filter (fun rc => decide (r.since ≤ rc.committerWhen))).map
          (fun rc => mkCommitInfo rc (commitFiles rc)), none) := by
  have hred : AnalyzeCommits r = analyzeLoop (sinceFilter r.since r.commits) [] := by
    simp [AnalyzeCommits, ho, hh, hl]
  rw [hred, analyzeLoop_ok]
  · simp [sinceFilter]
  · intro rc hrc
    exact hok rc (List.mem_of_mem_filter hrc)

/-- C4 witness: the amended theorem applied to the boundary repository. -/
theorem analyzeCommits_window_witness :
    AnalyzeCommits repoBoundary
      = ((repoBoundary.commits.filter
            (fun rc => decide (repoBoundary.since ≤ rc.committerWhen))).map
          (fun rc => mkCommitInfo rc (commitFiles rc)), none) :=
  analyzeCommits_window repoBoundary rfl rfl rfl (by decide)

end GitHotspots
